import Mathlib

/-!
Verification of the DAG task scheduler (src/main.go).

Shallow embedding notes:
* Go maps `map[string]T` are modelled as association lists `List (String × T)`
  with first-match lookup (`alookup`) and in-place update (`aset`); a missing
  key in the adjacency maps denotes the empty neighbour list, exactly like a
  Go `nil` slice.
* The `Dag.mu` mutex and the `Vertex.Dag` back-pointer are concurrency plumbing
  with no observable sequential content: status writes are already serialized
  by the lock, so `SetPass`/`SetFail` are modelled as atomic state transformers
  `setPass`/`setFail` on the whole graph state, addressed by vertex id.
* `IsCyclic` is general recursion in Go; it is embedded fuel-indexed
  (`isCyclic`), where `none` means the recursion did not finish within the
  given depth budget.  `AddEdge` inherits the fuel; `panic` is modelled as
  `Except.error` carrying the Go panic message.
* The `ExecuteVertices` wave loop is modelled by the step relation `RunStepP`:
  one step is one loop iteration (readiness snapshot, empty-wave success rule,
  or the dispatch of a wave of pass/fail recordings followed by the barrier).
-/

/-- Status enum of src/main.go (`Pending`, `Passed`, `Failed`). -/
inductive Status where
  | Pending
  | Passed
  | Failed
deriving DecidableEq, Repr

/-- Vertex record of src/main.go.  The `Dag` back-pointer is dropped: the
embedding passes the owning graph state explicitly. -/
structure Vertex where
  id : String
  status : Status
  loop : Nat
  canFail : Bool
deriving DecidableEq, Repr

/-- Graph state of src/main.go (`Dag`).  The mutex field is dropped, see the
header comment. -/
structure Dag where
  vertices : List (String × Vertex)
  connectionsParents : List (String × List String)
  connectionsChildren : List (String × List String)
  status : Status
  isStarted : Bool
deriving DecidableEq, Repr

/-- First-match lookup in an association list (Go map read). -/
def alookup {α : Type} : List (String × α) → String → Option α
  | [], _ => none
  | (k, v) :: rest, i => if k = i then some v else alookup rest i

/-- Update of an association list at a key: replaces the first binding present,
appends a new binding otherwise (Go map write). -/
def aset {α : Type} : List (String × α) → String → α → List (String × α)
  | [], i, v => [(i, v)]
  | (k, w) :: rest, i, v => if k = i then (i, v) :: rest else (k, w) :: aset rest i v

/-- Read of an adjacency map: a missing key is the empty list (Go nil slice). -/
def getList (m : List (String × List String)) (k : String) : List String :=
  (alookup m k).getD []

/-- Child ids of a vertex id (`d.ConnectionsChildren[i]`). -/
def childrenOf (d : Dag) (i : String) : List String :=
  getList d.connectionsChildren i

/-- Parent ids of a vertex id (`d.ConnectionsParents[i]`). -/
def parentsOf (d : Dag) (i : String) : List String :=
  getList d.connectionsParents i

/-- `Dag.HasFailed`. -/
def hasFailed (d : Dag) : Bool :=
  match d.status with
  | Status.Failed => true
  | _ => false

/-- `Dag.HasSucceeded`. -/
def hasSucceeded (d : Dag) : Bool :=
  match d.status with
  | Status.Passed => true
  | _ => false

/-- `Dag.HasFinished`. -/
def hasFinished (d : Dag) : Bool :=
  hasFailed d || hasSucceeded d

/-- `Dag.CanExecute`: every parent id must resolve to a registered vertex whose
status is not `Pending` (a missing parent vertex, `parent == nil` in Go, makes
the vertex not executable), and the vertex itself must still be `Pending`. -/
def canExecute (d : Dag) (v : Vertex) : Bool :=
  ((parentsOf d v.id).all fun pid =>
      match alookup d.vertices pid with
      | none => false
      | some p => if p.status = Status.Pending then false else true)
    && (if v.status = Status.Pending then true else false)

/-- `Vertex.SetPass`: under the graph lock, if the graph has not failed, set
this vertex's status to `Passed`; otherwise do nothing. -/
def setPass (d : Dag) (i : String) : Dag :=
  if hasFailed d then d
  else
    match alookup d.vertices i with
    | none => d
    | some v => { d with vertices := aset d.vertices i { v with status := Status.Passed } }

/-- `Vertex.SetFail`: under the graph lock, if the graph has not failed, set
this vertex's status to `Failed`, and if the vertex cannot fail, escalate by
setting the graph status to `Failed`. -/
def setFail (d : Dag) (i : String) : Dag :=
  if hasFailed d then d
  else
    match alookup d.vertices i with
    | none => d
    | some v =>
      if v.canFail then
        { d with vertices := aset d.vertices i { v with status := Status.Failed } }
      else
        { d with
          vertices := aset d.vertices i { v with status := Status.Failed },
          status := Status.Failed }

/-- The `d.IsStarted = true` write performed at the top of `Dag.Next`. -/
def markStarted (d : Dag) : Dag :=
  { d with isStarted := true }

/-- The readiness snapshot computed by `Dag.Next`: the vertices (in table
order; Go map order is unspecified) for which `CanExecute` holds. -/
def readyList (d : Dag) : List Vertex :=
  (d.vertices.map Prod.snd).filter fun v => canExecute d v

/-- `Dag.Next`: sets `IsStarted`, panics (`Except.error`) if the graph has
already failed, otherwise returns the readiness snapshot.  The first component
is the graph state after the call (the `IsStarted` write happens in every
case, including the panicking one). -/
def next (d : Dag) : Dag × Except String (List Vertex) :=
  let d' := markStarted d
  if hasFailed d' then (d', Except.error "DAG has failed")
  else (d', Except.ok (readyList d'))

/-- `Dag.AddVertex`: panics if the graph has started, otherwise registers the
vertex under its own id (overwriting any existing binding). -/
def addVertex (d : Dag) (v : Vertex) : Except String Dag :=
  if d.isStarted then Except.error "Cannot add vertex to a DAG that has already started"
  else Except.ok { d with vertices := aset d.vertices v.id v }

/-- `Dag.IsCyclic`, fuel-indexed: depth-first search from `to` along existing
child edges, looking for `frm`; only nonempty paths are explored.  `none`
means the Go recursion would not return within `fuel` nested calls. -/
def isCyclic (ch : List (String × List String)) (frm : String) : Nat → String → Option Bool
  | 0, _ => none
  | Nat.succ f, t =>
      (getList ch t).foldr
        (fun c acc =>
          if c = frm then some true
          else
            match isCyclic ch frm f c with
            | none => none
            | some true => some true
            | some false => acc)
        (some false)

/-- `Dag.AddEdge`, fuel-indexed through `isCyclic`: panics if started, panics
if the new edge would be cyclic, otherwise appends `frm` to the parents of
`to` and `to` to the children of `frm`.  `none` propagates fuel exhaustion of
the cycle check. -/
def addEdge (fuel : Nat) (d : Dag) (frm tgt : String) : Option (Except String Dag) :=
  if d.isStarted then some (Except.error "Cannot add edge to a DAG that has already started")
  else
    match isCyclic d.connectionsChildren frm fuel tgt with
    | none => none
    | some true => some (Except.error ("Cannot add cyclic edge " ++ frm ++ " -> " ++ tgt))
    | some false =>
        some (Except.ok
          { d with
            connectionsParents :=
              aset d.connectionsParents tgt (getList d.connectionsParents tgt ++ [frm]),
            connectionsChildren :=
              aset d.connectionsChildren frm (getList d.connectionsChildren frm ++ [tgt]) })

/-- `NewDag`. -/
def newDag : Dag :=
  { vertices := []
    connectionsParents := []
    connectionsChildren := []
    status := Status.Pending
    isStarted := false }

/-- One execution attempt of `ExecuteVertices`'s inner goroutine, addressed by
the id it reads from the loop variable: a passing attempt calls `SetPass`, a
failing one calls `SetFail` (`time.Now().Nanosecond()%2` is modelled as the
nondeterministic Boolean carried by the act). -/
def applyAct (d : Dag) (a : String × Bool) : Dag :=
  if a.2 then setPass d a.1 else setFail d a.1

/-- The serialized effect of all attempts of one wave (every `SetPass`/`SetFail`
runs under the one graph lock, so a wave is some sequence of acts). -/
def applyActs (d : Dag) (acts : List (String × Bool)) : Dag :=
  acts.foldl applyAct d

/-- Ids of the vertices in the readiness snapshot. -/
def readyIds (d : Dag) : List String :=
  (readyList d).map Vertex.id

/-- Total number of execution attempts dispatched for one wave:
`wg.Add(v.Loop)` summed over the snapshot. -/
def waveSize (d : Dag) : Nat :=
  ((readyList d).map Vertex.loop).sum

/-- The intended dispatch list of a wave: `v.Loop` attempts per ready vertex
(used to exhibit that a wave step always exists; outcomes all passing). -/
def canonActs : List Vertex → List (String × Bool)
  | [] => []
  | v :: rest => List.replicate v.loop (v.id, true) ++ canonActs rest

/-- One iteration of the `ExecuteVertices` loop, parameterized by a predicate
restricting the admissible act lists of a wave.  The loop guard
`!d.HasFinished()` gates every iteration; `Next` sets `IsStarted` and its
failure panic is unreachable under the guard.  If the snapshot is empty
(`verticesToProcess == nil`), the graph status is set to `Passed` and the wave
dispatches nothing.  Otherwise each attempt records on a vertex whose id it
read from the (shared, Go pre-1.22) loop variable — always the id of some
snapshot vertex — and the total number of attempts is `waveSize`; the barrier
`wg.Wait()` ends the step. -/
inductive RunStepP (P : Dag → List (String × Bool) → Prop) : Dag → Dag → Prop where
  | emptyWave (d : Dag) :
      hasFinished d = false →
      readyList (markStarted d) = [] →
      RunStepP P d { markStarted d with status := Status.Passed }
  | fullWave (d : Dag) (acts : List (String × Bool)) :
      hasFinished d = false →
      readyList (markStarted d) ≠ [] →
      (∀ a ∈ acts, a.1 ∈ readyIds (markStarted d)) →
      acts.length = waveSize (markStarted d) →
      P (markStarted d) acts →
      RunStepP P d (applyActs (markStarted d) acts)

/-- One unconstrained iteration of the `ExecuteVertices` loop. -/
def RunStep : Dag → Dag → Prop :=
  RunStepP fun _ _ => True

/-- Wave acts in which no `canFail = false` vertex ever reports failure. -/
def NoFatal (d : Dag) (acts : List (String × Bool)) : Prop :=
  ∀ a ∈ acts, a.2 = false → ∀ v, alookup d.vertices a.1 = some v → v.canFail = true

/-- One iteration of the `ExecuteVertices` loop in a run where no
`canFail = false` vertex ever reports failure. -/
def RunStepOK : Dag → Dag → Prop :=
  RunStepP NoFatal

/-- Reachability along existing child edges by a nonempty path (the paths
`Dag.IsCyclic` explores). -/
inductive Reaches (ch : List (String × List String)) : String → String → Prop where
  | single {a b : String} : b ∈ getList ch a → Reaches ch a b
  | cons {a b c : String} : b ∈ getList ch a → Reaches ch b c → Reaches ch a c

/-- A child adjacency with no cycle: no vertex reaches itself by a nonempty
path of child edges. -/
def Acyclic (ch : List (String × List String)) : Prop :=
  ∀ i, ¬ Reaches ch i i

/-- Every id occurring in a parent list is a registered vertex. -/
def ClosedParents (d : Dag) : Prop :=
  ∀ i pid, pid ∈ parentsOf d i → ∃ v, alookup d.vertices pid = some v

/-- The two adjacency maps are converse to each other (they are kept symmetric
by `AddEdge`). -/
def SymmAdj (d : Dag) : Prop :=
  ∀ a b, a ∈ parentsOf d b ↔ b ∈ childrenOf d a

/-- The vertex table has no duplicate keys (Go map keys are unique). -/
def KeysNodup (d : Dag) : Prop :=
  (d.vertices.map Prod.fst).Nodup

/-- Every vertex is registered under its own id (`AddVertex` keys by `v.ID`). -/
def KeysMatch (d : Dag) : Prop :=
  ∀ p ∈ d.vertices, p.2.id = p.1

/-- Every vertex dispatches at least one attempt (the spec's `repetitions` is a
positive integer). -/
def LoopsPos (d : Dag) : Prop :=
  ∀ p ∈ d.vertices, 1 ≤ p.2.loop

/-- A graph as produced by the build phase: unique keys, vertices keyed by
their own id, positive repetition counts, parent lists mentioning only
registered vertices, symmetric adjacency and an acyclic child relation. -/
def WellBuilt (d : Dag) : Prop :=
  KeysNodup d ∧ KeysMatch d ∧ LoopsPos d ∧ ClosedParents d ∧ SymmAdj d ∧
    Acyclic d.connectionsChildren

/-- Whether a status is `Pending`. -/
def isPending : Status → Bool
  | Status.Pending => true
  | _ => false

/-- Number of still-pending vertices (the termination measure of a run). -/
def pendCount (d : Dag) : Nat :=
  d.vertices.countP fun p => isPending p.2.status

/-- All ids mentioned on the right-hand side of a child adjacency (every step
of a child walk lands in this list). -/
def allTargets : List (String × List String) → List String
  | [] => []
  | (_, l) :: rest => l ++ allTargets rest

/-- Chains a vertex registration onto an optional build state (collapsing the
unreachable `AddVertex` panic to `none`). -/
def addVertexOk (v : Vertex) (od : Option Dag) : Option Dag :=
  od.bind fun d =>
    match addVertex d v with
    | Except.ok d' => some d'
    | Except.error _ => none

/-- Chains an edge insertion onto an optional build state: `none` unless the
`AddEdge` call returns normally. -/
def addEdgeOk (frm tgt : String) (od : Option Dag) : Option Dag :=
  od.bind fun d =>
    match addEdge 10 d frm tgt with
    | some (Except.ok d') => some d'
    | _ => none

/-- The five vertices built by `main()`. -/
def vertexA : Vertex := { id := "A", status := Status.Pending, loop := 1, canFail := true }

/-- Vertex B of `main()`. -/
def vertexB : Vertex := { id := "B", status := Status.Pending, loop := 1, canFail := false }

/-- Vertex C of `main()`. -/
def vertexC : Vertex := { id := "C", status := Status.Pending, loop := 11, canFail := true }

/-- Vertex D of `main()`. -/
def vertexD : Vertex := { id := "D", status := Status.Pending, loop := 3, canFail := true }

/-- Vertex E of `main()`. -/
def vertexE : Vertex := { id := "E", status := Status.Pending, loop := 1, canFail := true }

/-- The demo build of `main()`: five vertices, then the eight accepted edges in
program order. -/
def demoBuilt : Option Dag :=
  some newDag
    |> addVertexOk vertexA |> addVertexOk vertexB |> addVertexOk vertexC
    |> addVertexOk vertexD |> addVertexOk vertexE
    |> addEdgeOk "A" "B" |> addEdgeOk "A" "C" |> addEdgeOk "B" "D"
    |> addEdgeOk "C" "D" |> addEdgeOk "D" "E" |> addEdgeOk "A" "D"
    |> addEdgeOk "A" "E" |> addEdgeOk "C" "E"

/-- Checks that an `AddEdge` result is a panic carrying the given message. -/
def chkErr (r : Option (Except String Dag)) (msg : String) : Bool :=
  match r with
  | some (Except.error e) => if e = msg then true else false
  | _ => false

/-- Termination measure of a run: pending vertices plus one for the final
empty wave still owed when the graph is unfinished. -/
def runMeasure (d : Dag) : Nat :=
  pendCount d + (if hasFinished d then 0 else 1)

/-- A started but otherwise fresh graph (used as a concrete witness input). -/
def dagStartedEx : Dag :=
  { vertices := []
    connectionsParents := []
    connectionsChildren := []
    status := Status.Pending
    isStarted := true }

/-- A graph whose run has already failed (concrete witness input). -/
def dagFailedEx : Dag :=
  { vertices := [("A", vertexA)]
    connectionsParents := []
    connectionsChildren := []
    status := Status.Failed
    isStarted := true }

/-- A one-vertex freshly built graph (concrete witness input). -/
def dagOneA : Dag :=
  { vertices := [("A", vertexA)]
    connectionsParents := []
    connectionsChildren := []
    status := Status.Pending
    isStarted := false }

/-- A graph whose only vertex B lists the unregistered id Z as a parent
(concrete witness input for the dangling-parent behavior). -/
def dagGhostParent : Dag :=
  { vertices := [("B", vertexB)]
    connectionsParents := [("B", ["Z"])]
    connectionsChildren := [("Z", ["B"])]
    status := Status.Pending
    isStarted := false }

/-- The body of the fold inside `isCyclic` at fuel `f + 1`, named for reuse in
lemmas. -/
def cycStep (ch : List (String × List String)) (frm : String) (f : Nat)
    (c : String) (acc : Option Bool) : Option Bool :=
  if c = frm then some true
  else
    match isCyclic ch frm f c with
    | none => none
    | some true => some true
    | some false => acc


lemma hasFailed_eq_true_iff (d : Dag) : hasFailed d = true ↔ d.status = Status.Failed := by
  unfold hasFailed
  cases d.status <;> simp

lemma hasFailed_eq_false_iff (d : Dag) : hasFailed d = false ↔ d.status ≠ Status.Failed := by
  unfold hasFailed
  cases d.status <;> simp

lemma hasFinished_eq_false_iff (d : Dag) :
    hasFinished d = false ↔ d.status = Status.Pending := by
  unfold hasFinished hasFailed hasSucceeded
  cases d.status <;> simp

lemma hasFinished_eq_true_iff (d : Dag) :
    hasFinished d = true ↔ d.status = Status.Passed ∨ d.status = Status.Failed := by
  unfold hasFinished hasFailed hasSucceeded
  cases d.status <;> simp

lemma alookup_aset_self {α : Type} (l : List (String × α)) (k : String) (v : α) :
    alookup (aset l k v) k = some v := by
  induction l with
  | nil => simp [aset, alookup]
  | cons p rest ih =>
      obtain ⟨k', w⟩ := p
      by_cases h : k' = k
      · simp [aset, h, alookup]
      · simp [aset, h, alookup, ih]

lemma alookup_aset_ne {α : Type} (l : List (String × α)) (k i : String) (v : α)
    (h : i ≠ k) : alookup (aset l k v) i = alookup l i := by
  induction l with
  | nil => simp [aset, alookup, Ne.symm h]
  | cons p rest ih =>
      obtain ⟨k', w⟩ := p
      by_cases hk : k' = k
      · subst hk
        simp [aset, alookup, Ne.symm h]
      · by_cases hi : k' = i <;> simp [aset, alookup, hk, hi, ih, h]

lemma keys_aset_of_lookup_some {α : Type} (l : List (String × α)) (k : String) (v w : α)
    (h : alookup l k = some w) : (aset l k v).map Prod.fst = l.map Prod.fst := by
  induction l with
  | nil => simp [alookup] at h
  | cons p rest ih =>
      obtain ⟨k', w'⟩ := p
      by_cases hk : k' = k
      · simp [aset, hk]
      · simp [alookup, hk] at h
        simp [aset, hk, ih h]

lemma mem_aset_elim {α : Type} (l : List (String × α)) (k : String) (v : α)
    (p : String × α) (h : p ∈ aset l k v) : p = (k, v) ∨ p ∈ l := by
  induction l with
  | nil => simpa [aset] using h
  | cons q rest ih =>
      obtain ⟨k', w⟩ := q
      by_cases hk : k' = k
      · simp [aset, hk] at h
        rcases h with h | h
        · exact Or.inl h
        · exact Or.inr (List.mem_cons_of_mem _ h)
      · simp [aset, hk] at h
        rcases h with h | h
        · exact Or.inr (by simp [h])
        · rcases ih h with h' | h'
          · exact Or.inl h'
          · exact Or.inr (List.mem_cons_of_mem _ h')

lemma alookup_mem {α : Type} (l : List (String × α)) (k : String) (v : α)
    (h : alookup l k = some v) : (k, v) ∈ l := by
  induction l with
  | nil => simp [alookup] at h
  | cons p rest ih =>
      obtain ⟨k', w⟩ := p
      by_cases hk : k' = k
      · subst hk
        simp [alookup] at h
        simp [h]
      · simp [alookup, hk] at h
        exact List.mem_cons_of_mem _ (ih h)

lemma alookup_of_mem_nodup {α : Type} (l : List (String × α)) (k : String) (v : α)
    (hn : (l.map Prod.fst).Nodup) (h : (k, v) ∈ l) : alookup l k = some v := by
  induction l with
  | nil => simp at h
  | cons p rest ih =>
      obtain ⟨k', w⟩ := p
      rw [List.map_cons, List.nodup_cons] at hn
      rcases List.mem_cons.mp h with h' | h'
      · injection h' with hk hv
        subst hk
        subst hv
        simp [alookup]
      · have hkmem : k ∈ rest.map Prod.fst := List.mem_map.mpr ⟨(k, v), h', rfl⟩
        have hk : k' ≠ k := fun hkk => hn.1 (hkk ▸ hkmem)
        simp [alookup, hk, ih hn.2 h']

lemma alookup_isSome_iff_mem_keys {α : Type} (l : List (String × α)) (k : String) :
    (alookup l k).isSome = true ↔ k ∈ l.map Prod.fst := by
  induction l with
  | nil => simp [alookup]
  | cons p rest ih =>
      obtain ⟨k', w⟩ := p
      by_cases hk : k' = k
      · simp [alookup, hk]
      · simp [alookup, hk, ih, Ne.symm hk]

lemma mem_keys_of_alookup {α : Type} (l : List (String × α)) (k : String) (v : α)
    (h : alookup l k = some v) : k ∈ l.map Prod.fst := by
  rw [← alookup_isSome_iff_mem_keys, h]
  rfl

lemma canExecute_eq_true_iff (d : Dag) (v : Vertex) :
    canExecute d v = true ↔
      v.status = Status.Pending ∧
        ∀ pid ∈ parentsOf d v.id,
          ∃ p, alookup d.vertices pid = some p ∧ p.status ≠ Status.Pending := by
  unfold canExecute
  rw [Bool.and_eq_true, List.all_eq_true]
  constructor
  · rintro ⟨hall, hst⟩
    constructor
    · by_cases h : v.status = Status.Pending
      · exact h
      · simp [h] at hst
    · intro pid hmem
      have h := hall pid hmem
      cases hp : alookup d.vertices pid with
      | none => rw [hp] at h; simp at h
      | some p =>
          refine ⟨p, rfl, ?_⟩
          rw [hp] at h
          by_cases hs : p.status = Status.Pending
          · simp [hs] at h
          · exact hs
  · rintro ⟨hst, hpar⟩
    constructor
    · intro pid hmem
      obtain ⟨p, hp, hps⟩ := hpar pid hmem
      rw [hp]
      simp [hps]
    · simp [hst]

lemma canExecute_status (d : Dag) (v : Vertex) (h : canExecute d v = true) :
    v.status = Status.Pending :=
  ((canExecute_eq_true_iff d v).mp h).1

lemma mem_readyList_iff (d : Dag) (v : Vertex) :
    v ∈ readyList d ↔ v ∈ d.vertices.map Prod.snd ∧ canExecute d v = true := by
  unfold readyList
  simp [List.mem_filter]

lemma Reaches.trans {ch : List (String × List String)} {a b c : String}
    (h1 : Reaches ch a b) (h2 : Reaches ch b c) : Reaches ch a c := by
  induction h1 with
  | single h => exact Reaches.cons h h2
  | cons h _ ih => exact Reaches.cons h (ih h2)

lemma Reaches.snoc {ch : List (String × List String)} {a b c : String}
    (h1 : Reaches ch a b) (h2 : c ∈ getList ch b) : Reaches ch a c :=
  Reaches.trans h1 (Reaches.single h2)

lemma reaches_of_walk (ch : List (String × List String)) (w : Nat → String) (L : Nat)
    (hw : ∀ k, k < L → w (k + 1) ∈ getList ch (w k)) :
    ∀ i j, i < j → j ≤ L → Reaches ch (w i) (w j) := by
  intro i j
  induction j with
  | zero => intro h; exact absurd h (Nat.not_lt_zero i)
  | succ j ih =>
      intro hij hj
      rcases Nat.lt_succ_iff_lt_or_eq.mp hij with h | h
      · exact Reaches.snoc (ih h (Nat.le_of_succ_le hj)) (hw j (Nat.lt_of_succ_le hj))
      · subst h
        exact Reaches.single (hw i (Nat.lt_of_succ_le hj))

lemma reaches_of_chain_up (ch : List (String × List String)) (f : Nat → String)
    (hf : ∀ k, f k ∈ getList ch (f (k + 1))) :
    ∀ i j, i < j → Reaches ch (f j) (f i) := by
  intro i j
  induction j with
  | zero => intro h; exact absurd h (Nat.not_lt_zero i)
  | succ j ih =>
      intro hij
      rcases Nat.lt_succ_iff_lt_or_eq.mp hij with h | h
      · exact Reaches.trans (Reaches.single (hf j)) (ih h)
      · subst h
        exact Reaches.single (hf i)

lemma exists_repeat (f : Nat → String) (K : List String)
    (h : ∀ k, k ≤ K.length → f k ∈ K) :
    ∃ i j, i < j ∧ j ≤ K.length ∧ f i = f j := by
  have hcard : K.toFinset.card < (Finset.range (K.length + 1)).card := by
    rw [Finset.card_range]
    exact Nat.lt_succ_of_le K.toFinset_card_le
  have hmaps : ∀ a ∈ Finset.range (K.length + 1), f a ∈ K.toFinset := by
    intro a ha
    exact List.mem_toFinset.mpr (h a (Nat.lt_succ_iff.mp (Finset.mem_range.mp ha)))
  obtain ⟨x, hx, y, hy, hxy, hfxy⟩ :=
    Finset.exists_ne_map_eq_of_card_lt_of_maps_to hcard hmaps
  rcases Nat.lt_or_ge x y with hlt | hge
  · exact ⟨x, y, hlt, Nat.lt_succ_iff.mp (Finset.mem_range.mp hy), hfxy⟩
  · have hlt : y < x := Nat.lt_of_le_of_ne hge fun hh => hxy hh.symm
    exact ⟨y, x, hlt, Nat.lt_succ_iff.mp (Finset.mem_range.mp hx), hfxy.symm⟩

lemma mem_allTargets (ch : List (String × List String)) (x c : String)
    (h : c ∈ getList ch x) : c ∈ allTargets ch := by
  induction ch with
  | nil => simp [getList, alookup] at h
  | cons p rest ih =>
      obtain ⟨k, l⟩ := p
      by_cases hk : k = x
      · simp [getList, alookup, hk] at h
        exact List.mem_append_left _ h
      · simp [getList, alookup, hk] at h
        exact List.mem_append_right _ (ih h)

lemma isCyclic_succ (ch : List (String × List String)) (frm : String) (f : Nat) (t : String) :
    isCyclic ch frm (Nat.succ f) t = (getList ch t).foldr (cycStep ch frm f) (some false) :=
  rfl

lemma foldr_cycStep_none (ch : List (String × List String)) (frm : String) (f : Nat) :
    ∀ l : List String, l.foldr (cycStep ch frm f) (some false) = none →
      ∃ c ∈ l, isCyclic ch frm f c = none := by
  intro l
  induction l with
  | nil => intro h; simp at h
  | cons c cs ih =>
      intro h
      rw [List.foldr_cons] at h
      unfold cycStep at h
      by_cases hc : c = frm
      · simp [hc] at h
      · rw [if_neg hc] at h
        cases hrec : isCyclic ch frm f c with
        | none => exact ⟨c, List.mem_cons_self c cs, hrec⟩
        | some b =>
            rw [hrec] at h
            cases b with
            | true => simp at h
            | false =>
                obtain ⟨c', hc', hnone⟩ := ih h
                exact ⟨c', List.mem_cons_of_mem _ hc', hnone⟩

lemma walk_of_isCyclic_none (ch : List (String × List String)) (frm : String) :
    ∀ (f : Nat) (t : String), isCyclic ch frm f t = none →
      ∃ w : Nat → String, w 0 = t ∧ ∀ k, k < f → w (k + 1) ∈ getList ch (w k) := by
  intro f
  induction f with
  | zero =>
      intro t _
      exact ⟨fun _ => t, rfl, fun k hk => absurd hk (Nat.not_lt_zero k)⟩
  | succ f ih =>
      intro t h
      rw [isCyclic_succ] at h
      obtain ⟨c, hcmem, hcnone⟩ := foldr_cycStep_none ch frm f _ h
      obtain ⟨w, hw0, hwstep⟩ := ih c hcnone
      refine ⟨fun k => match k with | 0 => t | Nat.succ k => w k, rfl, ?_⟩
      intro k hk
      cases k with
      | zero => simpa [hw0] using hcmem
      | succ k => exact hwstep k (Nat.lt_of_succ_lt_succ hk)

lemma acyclic_nil : Acyclic ([] : List (String × List String)) := by
  intro i h
  cases h with
  | single hb => simp [getList, alookup] at hb
  | cons hb _ => simp [getList, alookup] at hb

/-- C10: on an acyclic child adjacency, the `IsCyclic` recursion terminates:
a depth budget of `(allTargets ch).length + 1` nested calls always suffices,
so the fuel-indexed embedding returns a result. -/
theorem isCyclic_terminates (ch : List (String × List String)) (hacy : Acyclic ch)
    (frm tgt : String) : ∃ fuel, (isCyclic ch frm fuel tgt).isSome = true := by
  refine ⟨(allTargets ch).length + 1, ?_⟩
  cases h : isCyclic ch frm ((allTargets ch).length + 1) tgt with
  | some b => rfl
  | none =>
      exfalso
      obtain ⟨w, hw0, hwstep⟩ := walk_of_isCyclic_none ch frm _ tgt h
      have hmem : ∀ k, k ≤ (allTargets ch).length → w (k + 1) ∈ allTargets ch := by
        intro k hk
        exact mem_allTargets ch (w k) (w (k + 1)) (hwstep k (Nat.lt_succ_of_le hk))
      obtain ⟨i, j, hij, hj, heq⟩ := exists_repeat (fun k => w (k + 1)) (allTargets ch) hmem
      have hreach : Reaches ch (w (i + 1)) (w (j + 1)) :=
        reaches_of_walk ch w ((allTargets ch).length + 1) hwstep (i + 1) (j + 1)
          (Nat.succ_lt_succ hij) (Nat.succ_le_succ hj)
      rw [heq] at hreach
      exact hacy (w (j + 1)) hreach

/-- Witness for C10 at a concrete acyclic adjacency. -/
theorem isCyclic_terminates_witness :
    ∃ fuel, (isCyclic [("A", ["B"])] "B" fuel "A").isSome = true := by
  have hmem : ∀ a b : String, b ∈ getList [("A", ["B"])] a → a = "A" ∧ b = "B" := by
    intro a b hab
    by_cases ha : a = "A"
    · subst ha
      simp [getList, alookup] at hab
      exact ⟨rfl, hab⟩
    · simp [getList, alookup, Ne.symm ha] at hab
  have key : ∀ a b : String, Reaches [("A", ["B"])] a b → a = "A" ∧ b = "B" := by
    intro a b h
    induction h with
    | single hb => exact hmem _ _ hb
    | cons hb _ ih =>
        obtain ⟨ha, hb'⟩ := hmem _ _ hb
        exact absurd (hb'.symm.trans ih.1) (by decide)
  have hacy : Acyclic [("A", ["B"])] := by
    intro i h
    obtain ⟨h1, h2⟩ := key i i h
    exact absurd (h1.symm.trans h2) (by decide)
  exact isCyclic_terminates [("A", ["B"])] hacy "B" "A"

/-- C1 (code bug): on a fresh graph, `AddEdge("A","A")` is accepted even though
it closes a cycle (`from = to`): `IsCyclic` only explores nonempty child paths
that already exist, so it returns `false` when `from = to` on an acyclic
graph, and the self-loop is recorded in both adjacency maps — after the call,
`"A"` reaches itself by a child edge. -/
theorem addEdge_selfLoop_accepted :
    ∃ d', addEdge 1 newDag "A" "A" = some (Except.ok d') ∧
      Reaches d'.connectionsChildren "A" "A" := by
  refine ⟨{ vertices := [], connectionsParents := [("A", ["A"])],
            connectionsChildren := [("A", ["A"])], status := Status.Pending,
            isStarted := false }, by rfl, ?_⟩
  exact Reaches.single (by decide)

/-- C8: in the concrete `main()` scenario the eight build edges A→B, A→C,
B→D, C→D, D→E, A→D, A→E, C→E are all accepted in order, and each of the
back edges B→A, D→A, E→A is then rejected with the cycle panic. -/
theorem demo_scenario_edges :
    demoBuilt.isSome = true ∧
      chkErr (demoBuilt.bind fun d8 => addEdge 10 d8 "B" "A")
        "Cannot add cyclic edge B -> A" = true ∧
      chkErr (demoBuilt.bind fun d8 => addEdge 10 d8 "D" "A")
        "Cannot add cyclic edge D -> A" = true ∧
      chkErr (demoBuilt.bind fun d8 => addEdge 10 d8 "E" "A")
        "Cannot add cyclic edge E -> A" = true := by
  refine ⟨by decide, by decide, by decide, by decide⟩

/-- C2: `CanExecute` holds exactly when the vertex is still `Pending` and
every id in its parent list is a registered vertex whose status is not
`Pending`; in particular a `Pending` vertex with no parents is ready. -/
theorem canExecute_characterization (d : Dag) (v : Vertex) :
    (canExecute d v = true ↔
      v.status = Status.Pending ∧
        ∀ pid ∈ parentsOf d v.id,
          ∃ p, alookup d.vertices pid = some p ∧ p.status ≠ Status.Pending) ∧
    (v.status = Status.Pending → parentsOf d v.id = [] → canExecute d v = true) := by
  refine ⟨canExecute_eq_true_iff d v, ?_⟩
  intro hst hpar
  refine (canExecute_eq_true_iff d v).mpr ⟨hst, ?_⟩
  rw [hpar]
  intro pid h
  simp at h

/-- Witness for C2: the parentless pending vertex A of a fresh graph is
ready. -/
theorem canExecute_characterization_witness : canExecute newDag vertexA = true :=
  (canExecute_characterization newDag vertexA).2 rfl rfl

/-- C3: `SetFail` on a registered vertex: if the graph has already failed it
changes nothing; otherwise it sets the vertex's status to `Failed` and the
graph status becomes `Failed` exactly when the vertex's `CanFail` is false. -/
theorem setFail_behavior (d : Dag) (i : String) (v : Vertex)
    (hv : alookup d.vertices i = some v) :
    (d.status = Status.Failed → setFail d i = d) ∧
    (d.status ≠ Status.Failed →
      alookup (setFail d i).vertices i = some { v with status := Status.Failed } ∧
      ((setFail d i).status = Status.Failed ↔ v.canFail = false)) := by
  constructor
  · intro h
    unfold setFail
    rw [if_pos ((hasFailed_eq_true_iff d).mpr h)]
  · intro h
    have hf : hasFailed d = false := (hasFailed_eq_false_iff d).mpr h
    cases hcf : v.canFail with
    | true =>
        have hres : setFail d i =
            { d with vertices := aset d.vertices i { v with status := Status.Failed } } := by
          simp [setFail, hf, hv, hcf]
        rw [hres]
        refine ⟨?_, ?_⟩
        · simpa [hcf] using
            alookup_aset_self d.vertices i { v with status := Status.Failed }
        · constructor
          · intro hh
            exact absurd hh h
          · intro hh
            simp [hcf] at hh
    | false =>
        have hres : setFail d i =
            { d with
              vertices := aset d.vertices i { v with status := Status.Failed },
              status := Status.Failed } := by
          simp [setFail, hf, hv, hcf]
        rw [hres]
        refine ⟨?_, ⟨fun _ => rfl, fun _ => rfl⟩⟩
        simpa [hcf] using
          alookup_aset_self d.vertices i { v with status := Status.Failed }

/-- Witness for C3 on the one-vertex graph: failing the `CanFail = true`
vertex A marks it `Failed` without failing the graph. -/
theorem setFail_behavior_witness :
    (dagOneA.status = Status.Failed → setFail dagOneA "A" = dagOneA) ∧
    (dagOneA.status ≠ Status.Failed →
      alookup (setFail dagOneA "A").vertices "A" =
        some { vertexA with status := Status.Failed } ∧
      ((setFail dagOneA "A").status = Status.Failed ↔ vertexA.canFail = false)) :=
  setFail_behavior dagOneA "A" vertexA (by decide)

lemma runStepP_not_finished {P : Dag → List (String × Bool) → Prop} {d d' : Dag}
    (h : RunStepP P d d') : hasFinished d = false := by
  cases h with
  | emptyWave hfin _ => exact hfin
  | fullWave _ hfin _ _ _ _ => exact hfin

/-- C4: once the graph status is `Failed`, `SetPass` and `SetFail` are no-ops
on every vertex, and no further step of the `ExecuteVertices` loop is
possible at all, so no vertex status changes for the rest of the run. -/
theorem failed_graph_frozen (d : Dag) (h : d.status = Status.Failed) :
    (∀ i, setPass d i = d ∧ setFail d i = d) ∧
    (∀ d', Relation.ReflTransGen RunStep d d' → d' = d) := by
  have hf : hasFailed d = true := (hasFailed_eq_true_iff d).mpr h
  constructor
  · intro i
    constructor
    · unfold setPass
      rw [if_pos hf]
    · unfold setFail
      rw [if_pos hf]
  · intro d' hrt
    induction hrt with
    | refl => rfl
    | tail _ hstep ih =>
        rw [ih] at hstep
        have hnf := runStepP_not_finished hstep
        rw [hasFinished_eq_false_iff, h] at hnf
        exact absurd hnf (by decide)

/-- Witness for C4 on a concrete failed graph. -/
theorem failed_graph_frozen_witness :
    (∀ i, setPass dagFailedEx i = dagFailedEx ∧ setFail dagFailedEx i = dagFailedEx) ∧
    (∀ d', Relation.ReflTransGen RunStep dagFailedEx d' → d' = dagFailedEx) :=
  failed_graph_frozen dagFailedEx rfl

/-- C5: along the `ExecuteVertices` loop the graph status never changes once
it has left `Pending`: every step requires an unfinished (hence `Pending`)
graph, so the status makes at most one `Pending`→`Passed` or
`Pending`→`Failed` transition and is stable afterwards. -/
theorem status_terminal_stable (d d' : Dag)
    (hrt : Relation.ReflTransGen RunStep d d') (h : d.status ≠ Status.Pending) :
    d'.status = d.status := by
  induction hrt with
  | refl => rfl
  | tail _ hstep ih =>
      have hnf := runStepP_not_finished hstep
      rw [hasFinished_eq_false_iff] at hnf
      rw [hnf] at ih
      exact absurd ih.symm h

/-- Witness for C5 at a terminal state and the empty run. -/
theorem status_terminal_stable_witness : dagFailedEx.status = dagFailedEx.status :=
  status_terminal_stable dagFailedEx dagFailedEx Relation.ReflTransGen.refl (by decide)

/-- C7: `Next` leaves the started flag set in every case, and on a started
graph every `AddVertex` and every `AddEdge` call fails with the corresponding
precondition panic (the panic aborts before any mutation, so the vertex table
and both adjacency maps are untouched). -/
theorem frozen_after_start :
    (∀ d : Dag, (next d).1.isStarted = true) ∧
    (∀ d : Dag, d.isStarted = true →
      (∀ v, addVertex d v =
        Except.error "Cannot add vertex to a DAG that has already started") ∧
      (∀ fuel frm tgt, addEdge fuel d frm tgt =
        some (Except.error "Cannot add edge to a DAG that has already started"))) := by
  constructor
  · intro d
    simp only [next, markStarted]
    split <;> rfl
  · intro d hd
    constructor
    · intro v
      unfold addVertex
      rw [if_pos hd]
    · intro fuel frm tgt
      unfold addEdge
      rw [if_pos hd]

/-- Witness for C7: the mutators fail on a concrete started graph. -/
theorem frozen_after_start_witness :
    (next newDag).1.isStarted = true ∧
    addVertex dagStartedEx vertexA =
      Except.error "Cannot add vertex to a DAG that has already started" ∧
    addEdge 5 dagStartedEx "A" "B" =
      some (Except.error "Cannot add edge to a DAG that has already started") :=
  ⟨frozen_after_start.1 newDag,
   (frozen_after_start.2 dagStartedEx rfl).1 vertexA,
   (frozen_after_start.2 dagStartedEx rfl).2 5 "A" "B"⟩

/-- C9: `AddEdge` never consults the vertex table — replacing the table
changes nothing about the call's outcome except that the replaced table is
carried through — and a vertex whose parent list contains an unregistered id
fails `CanExecute` (the `parent == nil` branch) and therefore never appears
in a readiness snapshot, regardless of its own status. -/
theorem addEdge_unregistered_endpoints :
    (∀ (d : Dag) (vs : List (String × Vertex)) (fuel : Nat) (frm tgt : String),
      addEdge fuel { d with vertices := vs } frm tgt =
        (addEdge fuel d frm tgt).map (Except.map fun e => { e with vertices := vs })) ∧
    (∀ (d : Dag) (v : Vertex) (pid : String),
      pid ∈ parentsOf d v.id → alookup d.vertices pid = none →
      canExecute d v = false ∧ v ∉ readyList d) := by
  constructor
  · intro d vs fuel frm tgt
    by_cases hs : d.isStarted = true
    · simp [addEdge, hs, Except.map]
    · have hs' : d.isStarted = false := by simpa using hs
      cases hcy : isCyclic d.connectionsChildren frm fuel tgt with
      | none => simp [addEdge, hs', hcy]
      | some b => cases b <;> simp [addEdge, hs', hcy, Except.map]
  · intro d v pid hmem hnone
    have hfalse : canExecute d v = false := by
      cases hce : canExecute d v with
      | false => rfl
      | true =>
          obtain ⟨_, hpar⟩ := (canExecute_eq_true_iff d v).mp hce
          obtain ⟨p, hp, _⟩ := hpar pid hmem
          rw [hnone] at hp
          simp at hp
    refine ⟨hfalse, ?_⟩
    intro hmemready
    have hce := ((mem_readyList_iff d v).mp hmemready).2
    rw [hfalse] at hce
    simp at hce

/-- Witness for C9: a concrete vertex-table replacement, and the ghost-parent
vertex B blocked from the ready set. -/
theorem addEdge_unregistered_endpoints_witness :
    addEdge 3 { newDag with vertices := [("Q", vertexA)] } "X" "Y" =
      (addEdge 3 newDag "X" "Y").map
        (Except.map fun e => { e with vertices := [("Q", vertexA)] }) ∧
    (canExecute dagGhostParent vertexB = false ∧ vertexB ∉ readyList dagGhostParent) :=
  ⟨addEdge_unregistered_endpoints.1 newDag [("Q", vertexA)] 3 "X" "Y",
   addEdge_unregistered_endpoints.2 dagGhostParent vertexB "Z" (by decide) (by decide)⟩

lemma length_canonActs (l : List Vertex) :
    (canonActs l).length = (l.map Vertex.loop).sum := by
  induction l with
  | nil => rfl
  | cons v rest ih => simp [canonActs, ih]

lemma mem_canonActs (l : List Vertex) (a : String × Bool) (h : a ∈ canonActs l) :
    ∃ v ∈ l, a = (v.id, true) := by
  induction l with
  | nil => simp [canonActs] at h
  | cons v rest ih =>
      simp only [canonActs] at h
      rcases List.mem_append.mp h with h | h
      · exact ⟨v, List.mem_cons_self v rest, List.eq_of_mem_replicate h⟩
      · obtain ⟨v', hv', ha⟩ := ih h
        exact ⟨v', List.mem_cons_of_mem _ hv', ha⟩

lemma setPass_eq (d : Dag) (i : String) (v : Vertex) (hf : hasFailed d = false)
    (hv : alookup d.vertices i = some v) :
    setPass d i = { d with vertices := aset d.vertices i { v with status := Status.Passed } } := by
  simp [setPass, hf, hv]

lemma setFail_eq_canFail (d : Dag) (i : String) (v : Vertex) (hf : hasFailed d = false)
    (hv : alookup d.vertices i = some v) (hcv : v.canFail = true) :
    setFail d i = { d with vertices := aset d.vertices i { v with status := Status.Failed } } := by
  simp [setFail, hf, hv, hcv]

lemma setFail_eq_fatal (d : Dag) (i : String) (v : Vertex) (hf : hasFailed d = false)
    (hv : alookup d.vertices i = some v) (hcv : v.canFail = false) :
    setFail d i =
      { d with
        vertices := aset d.vertices i { v with status := Status.Failed },
        status := Status.Failed } := by
  simp [setFail, hf, hv, hcv]

lemma applyAct_vertices (d : Dag) (a : String × Bool) :
    (applyAct d a).vertices = d.vertices ∨
    ∃ v st, st ≠ Status.Pending ∧ alookup d.vertices a.1 = some v ∧
      (applyAct d a).vertices = aset d.vertices a.1 { v with status := st } := by
  obtain ⟨i, b⟩ := a
  cases hfb : hasFailed d with
  | true =>
      left
      cases b <;> simp [applyAct, setPass, setFail, hfb]
  | false =>
      cases hv : alookup d.vertices i with
      | none =>
          left
          cases b <;> simp [applyAct, setPass, setFail, hfb, hv]
      | some v =>
          cases b with
          | true =>
              right
              refine ⟨v, Status.Passed, by decide, rfl, ?_⟩
              rw [show applyAct d (i, true) = setPass d i from rfl,
                setPass_eq d i v hfb hv]
          | false =>
              right
              refine ⟨v, Status.Failed, by decide, rfl, ?_⟩
              by_cases hcv : v.canFail = true
              · rw [show applyAct d (i, false) = setFail d i from rfl,
                  setFail_eq_canFail d i v hfb hv hcv]
              · have hcv2 : v.canFail = false := by simpa using hcv
                rw [show applyAct d (i, false) = setFail d i from rfl,
                  setFail_eq_fatal d i v hfb hv hcv2]

lemma applyAct_connections (d : Dag) (a : String × Bool) :
    (applyAct d a).connectionsParents = d.connectionsParents ∧
    (applyAct d a).connectionsChildren = d.connectionsChildren := by
  obtain ⟨i, b⟩ := a
  cases hfb : hasFailed d with
  | true => cases b <;> simp [applyAct, setPass, setFail, hfb]
  | false =>
      cases hv : alookup d.vertices i with
      | none => cases b <;> simp [applyAct, setPass, setFail, hfb, hv]
      | some v =>
          cases b with
          | true =>
              rw [show applyAct d (i, true) = setPass d i from rfl, setPass_eq d i v hfb hv]
              exact ⟨rfl, rfl⟩
          | false =>
              by_cases hcv : v.canFail = true
              · rw [show applyAct d (i, false) = setFail d i from rfl,
                  setFail_eq_canFail d i v hfb hv hcv]
                exact ⟨rfl, rfl⟩
              · have hcv2 : v.canFail = false := by simpa using hcv
                rw [show applyAct d (i, false) = setFail d i from rfl,
                  setFail_eq_fatal d i v hfb hv hcv2]
                exact ⟨rfl, rfl⟩

lemma applyAct_keys (d : Dag) (a : String × Bool) :
    (applyAct d a).vertices.map Prod.fst = d.vertices.map Prod.fst := by
  rcases applyAct_vertices d a with h | ⟨v, st, _, hv, h⟩
  · rw [h]
  · rw [h]
    exact keys_aset_of_lookup_some d.vertices a.1 _ v hv

lemma applyAct_meta (d : Dag) (a : String × Bool) (j : String) :
    (alookup (applyAct d a).vertices j).map Vertex.id =
      (alookup d.vertices j).map Vertex.id ∧
    (alookup (applyAct d a).vertices j).map Vertex.loop =
      (alookup d.vertices j).map Vertex.loop ∧
    (alookup (applyAct d a).vertices j).map Vertex.canFail =
      (alookup d.vertices j).map Vertex.canFail := by
  rcases applyAct_vertices d a with h | ⟨v, st, _, hv, h⟩
  · rw [h]
    exact ⟨rfl, rfl, rfl⟩
  · rw [h]
    by_cases hj : j = a.1
    · subst hj
      rw [alookup_aset_self, hv]
      exact ⟨rfl, rfl, rfl⟩
    · rw [alookup_aset_ne d.vertices a.1 j _ hj]
      exact ⟨rfl, rfl, rfl⟩

lemma mem_applyAct_vertices (d : Dag) (a : String × Bool) (p : String × Vertex)
    (hp : p ∈ (applyAct d a).vertices) :
    p ∈ d.vertices ∨
    ∃ v st, alookup d.vertices a.1 = some v ∧ p = (a.1, { v with status := st }) := by
  rcases applyAct_vertices d a with h | ⟨v, st, _, hv, h⟩
  · rw [h] at hp
    exact Or.inl hp
  · rw [h] at hp
    rcases mem_aset_elim _ _ _ p hp with h' | h'
    · exact Or.inr ⟨v, st, hv, h'⟩
    · exact Or.inl h'

lemma setPass_status (d : Dag) (i : String) : (setPass d i).status = d.status := by
  unfold setPass
  by_cases hf : hasFailed d = true
  · rw [if_pos hf]
  · rw [if_neg hf]
    cases hv : alookup d.vertices i with
    | none => rfl
    | some v => rfl

lemma setFail_status_of_safe (d : Dag) (i : String)
    (h : ∀ v, alookup d.vertices i = some v → v.canFail = true) :
    (setFail d i).status = d.status := by
  unfold setFail
  by_cases hf : hasFailed d = true
  · rw [if_pos hf]
  · rw [if_neg hf]
    cases hv : alookup d.vertices i with
    | none => rfl
    | some v => simp [h v hv]

lemma applyActs_status (acts : List (String × Bool)) : ∀ d : Dag,
    (∀ a ∈ acts, a.2 = false → ∀ v, alookup d.vertices a.1 = some v → v.canFail = true) →
    (applyActs d acts).status = d.status := by
  induction acts with
  | nil => intro d _; rfl
  | cons a rest ih =>
      intro d hsafe
      have h1 : (applyAct d a).status = d.status := by
        cases hb : a.2 with
        | true =>
            rw [show applyAct d a = setPass d a.1 from by rw [applyAct, hb]; rfl]
            exact setPass_status d a.1
        | false =>
            rw [show applyAct d a = setFail d a.1 from by rw [applyAct, hb]; rfl]
            exact setFail_status_of_safe d a.1
              (hsafe a (List.mem_cons_self a rest) hb)
      have h2 : (applyActs (applyAct d a) rest).status = (applyAct d a).status := by
        refine ih (applyAct d a) ?_
        intro a' ha' hb' v' hv'
        have hmeta := (applyAct_meta d a a'.1).2.2
        rw [hv'] at hmeta
        obtain ⟨v0, hv0, hcf0⟩ := Option.map_eq_some'.mp hmeta.symm
        rw [← hcf0]
        exact hsafe a' (List.mem_cons_of_mem _ ha') hb' v0 hv0
      exact h2.trans h1

lemma applyActs_connections (acts : List (String × Bool)) : ∀ d : Dag,
    (applyActs d acts).connectionsParents = d.connectionsParents ∧
    (applyActs d acts).connectionsChildren = d.connectionsChildren ∧
    (applyActs d acts).vertices.map Prod.fst = d.vertices.map Prod.fst := by
  induction acts with
  | nil => intro d; exact ⟨rfl, rfl, rfl⟩
  | cons a rest ih =>
      intro d
      obtain ⟨h1, h2, h3⟩ := ih (applyAct d a)
      obtain ⟨g1, g2⟩ := applyAct_connections d a
      exact ⟨h1.trans g1, h2.trans g2, h3.trans (applyAct_keys d a)⟩

lemma countP_aset_le (l : List (String × Vertex)) (k : String) (w : Vertex)
    (hw : isPending w.status = false) :
    (aset l k w).countP (fun p => isPending p.2.status) ≤
      l.countP (fun p => isPending p.2.status) := by
  induction l with
  | nil => simp [aset, List.countP_cons, hw]
  | cons p rest ih =>
      obtain ⟨k', v'⟩ := p
      by_cases hk : k' = k
      · simp only [aset, if_pos hk, List.countP_cons, hw]
        simp
      · simp only [aset, if_neg hk, List.countP_cons]
        omega

lemma countP_aset_lt (l : List (String × Vertex)) (k : String) (v w : Vertex)
    (hl : alookup l k = some v) (hv : isPending v.status = true)
    (hw : isPending w.status = false) :
    (aset l k w).countP (fun p => isPending p.2.status) <
      l.countP (fun p => isPending p.2.status) := by
  induction l with
  | nil => simp [alookup] at hl
  | cons p rest ih =>
      obtain ⟨k', v'⟩ := p
      by_cases hk : k' = k
      · rw [alookup, if_pos hk] at hl
        injection hl with hl
        subst hl
        simp only [aset, if_pos hk, List.countP_cons, hv, hw]
        simp
      · rw [alookup, if_neg hk] at hl
        simp only [aset, if_neg hk, List.countP_cons]
        have := ih hl
        omega

lemma applyAct_pendCount_le (d : Dag) (a : String × Bool) :
    pendCount (applyAct d a) ≤ pendCount d := by
  rcases applyAct_vertices d a with h | ⟨v, st, hst, hv, h⟩
  · unfold pendCount
    rw [h]
  · unfold pendCount
    rw [h]
    refine countP_aset_le d.vertices a.1 _ ?_
    cases st with
    | Pending => exact absurd rfl hst
    | Passed => rfl
    | Failed => rfl

lemma applyActs_pendCount_le (acts : List (String × Bool)) : ∀ d : Dag,
    pendCount (applyActs d acts) ≤ pendCount d := by
  induction acts with
  | nil => intro d; exact Nat.le_refl _
  | cons a rest ih =>
      intro d
      exact Nat.le_trans (ih (applyAct d a)) (applyAct_pendCount_le d a)

lemma applyAct_pendCount_lt (d : Dag) (i : String) (b : Bool) (v : Vertex)
    (hf : hasFailed d = false) (hv : alookup d.vertices i = some v)
    (hvp : v.status = Status.Pending) :
    pendCount (applyAct d (i, b)) < pendCount d := by
  have hvpend : isPending v.status = true := by rw [hvp]; rfl
  cases b with
  | true =>
      rw [show applyAct d (i, true) = setPass d i from rfl, setPass_eq d i v hf hv]
      unfold pendCount
      exact countP_aset_lt d.vertices i v _ hv hvpend rfl
  | false =>
      by_cases hcv : v.canFail = true
      · rw [show applyAct d (i, false) = setFail d i from rfl,
          setFail_eq_canFail d i v hf hv hcv]
        unfold pendCount
        exact countP_aset_lt d.vertices i v _ hv hvpend rfl
      · have hcv2 : v.canFail = false := by simpa using hcv
        rw [show applyAct d (i, false) = setFail d i from rfl,
          setFail_eq_fatal d i v hf hv hcv2]
        unfold pendCount
        exact countP_aset_lt d.vertices i v _ hv hvpend rfl

lemma readyList_lookup (d : Dag) (hkn : KeysNodup d) (hkm : KeysMatch d)
    (v : Vertex) (hv : v ∈ readyList d) : alookup d.vertices v.id = some v := by
  obtain ⟨hmem, _⟩ := (mem_readyList_iff d v).mp hv
  obtain ⟨p, hp, hpv⟩ := List.mem_map.mp hmem
  have hid : v.id = p.1 := by rw [← hpv]; exact hkm p hp
  have hpair : (v.id, v) ∈ d.vertices := by
    rw [hid, ← hpv]
    exact hp
  exact alookup_of_mem_nodup d.vertices v.id v hkn hpair

lemma wave_progress (d : Dag) (hkn : KeysNodup d) (hkm : KeysMatch d) (hlp : LoopsPos d)
    (hst : d.status = Status.Pending) (hready : readyList d ≠ [])
    (acts : List (String × Bool)) (hmem : ∀ a ∈ acts, a.1 ∈ readyIds d)
    (hlen : acts.length = waveSize d) :
    pendCount (applyActs d acts) < pendCount d := by
  have hf : hasFailed d = false := by rw [hasFailed_eq_false_iff, hst]; decide
  cases hacts : acts with
  | nil =>
      exfalso
      cases hrl : readyList d with
      | nil => exact hready hrl
      | cons v0 rest =>
          have hv0 : v0 ∈ readyList d := by rw [hrl]; exact List.mem_cons_self v0 rest
          obtain ⟨hmem0, _⟩ := (mem_readyList_iff d v0).mp hv0
          obtain ⟨p, hp, hpv⟩ := List.mem_map.mp hmem0
          have hloop : 1 ≤ v0.loop := by
            have := hlp p hp
            rw [hpv] at this
            exact this
          have hws : 1 ≤ waveSize d := by
            unfold waveSize
            rw [hrl]
            simp
            omega
          rw [hacts] at hlen
          simp at hlen
          omega
  | cons a rest =>
      subst hacts
      obtain ⟨v, hvready, hvid⟩ := by
        have := hmem a (List.mem_cons_self a rest)
        unfold readyIds at this
        exact List.mem_map.mp this
      have hvlook : alookup d.vertices a.1 = some v := by
        rw [← hvid]
        exact readyList_lookup d hkn hkm v hvready
      have hvpend : v.status = Status.Pending :=
        canExecute_status d v ((mem_readyList_iff d v).mp hvready).2
      have h1 : pendCount (applyAct d a) < pendCount d := by
        have := applyAct_pendCount_lt d a.1 a.2 v hf hvlook hvpend
        exact this
      exact Nat.lt_of_le_of_lt (applyActs_pendCount_le rest (applyAct d a)) h1

lemma wellBuilt_transport (d d' : Dag) (hv : d'.vertices = d.vertices)
    (hp : d'.connectionsParents = d.connectionsParents)
    (hc : d'.connectionsChildren = d.connectionsChildren)
    (hw : WellBuilt d) : WellBuilt d' := by
  obtain ⟨h1, h2, h3, h4, h5, h6⟩ := hw
  refine ⟨?_, ?_, ?_, ?_, ?_, ?_⟩
  · unfold KeysNodup
    rw [hv]
    exact h1
  · unfold KeysMatch
    rw [hv]
    exact h2
  · unfold LoopsPos
    rw [hv]
    exact h3
  · unfold ClosedParents parentsOf
    rw [hp, hv]
    exact h4
  · unfold SymmAdj parentsOf childrenOf
    rw [hp, hc]
    exact h5
  · rw [hc]
    exact h6

lemma wellBuilt_applyAct (d : Dag) (a : String × Bool) (hw : WellBuilt d) :
    WellBuilt (applyAct d a) := by
  obtain ⟨h1, h2, h3, h4, h5, h6⟩ := hw
  obtain ⟨gp, gc⟩ := applyAct_connections d a
  have gk := applyAct_keys d a
  refine ⟨?_, ?_, ?_, ?_, ?_, ?_⟩
  · unfold KeysNodup
    rw [gk]
    exact h1
  · intro p hp
    rcases mem_applyAct_vertices d a p hp with h | ⟨v, st, hv, hpv⟩
    · exact h2 p h
    · rw [hpv]
      exact h2 (a.1, v) (alookup_mem d.vertices a.1 v hv)
  · intro p hp
    rcases mem_applyAct_vertices d a p hp with h | ⟨v, st, hv, hpv⟩
    · exact h3 p h
    · rw [hpv]
      exact h3 (a.1, v) (alookup_mem d.vertices a.1 v hv)
  · intro i pid hpid
    rw [show parentsOf (applyAct d a) i = parentsOf d i from by
      unfold parentsOf; rw [gp]] at hpid
    obtain ⟨v, hv⟩ := h4 i pid hpid
    have hsome : (alookup (applyAct d a).vertices pid).isSome = true := by
      rw [alookup_isSome_iff_mem_keys, gk, ← alookup_isSome_iff_mem_keys, hv]
      rfl
    obtain ⟨v', hv'⟩ := Option.isSome_iff_exists.mp hsome
    exact ⟨v', hv'⟩
  · intro x y
    unfold SymmAdj at h5
    rw [show parentsOf (applyAct d a) y = parentsOf d y from by
      unfold parentsOf; rw [gp]]
    rw [show childrenOf (applyAct d a) x = childrenOf d x from by
      unfold childrenOf; rw [gc]]
    exact h5 x y
  · rw [gc]
    exact h6

lemma wellBuilt_applyActs (acts : List (String × Bool)) : ∀ d : Dag,
    WellBuilt d → WellBuilt (applyActs d acts) := by
  induction acts with
  | nil => intro d hw; exact hw
  | cons a rest ih =>
      intro d hw
      exact ih (applyAct d a) (wellBuilt_applyAct d a hw)

lemma exists_ready_of_pending (d : Dag)
    (hkn : KeysNodup d) (hkm : KeysMatch d) (hcp : ClosedParents d) (hsym : SymmAdj d)
    (hacy : Acyclic d.connectionsChildren)
    (hpend : ∃ p ∈ d.vertices, p.2.status = Status.Pending) :
    ∃ q ∈ d.vertices, canExecute d q.2 = true := by
  by_contra hno
  push_neg at hno
  have hno' : ∀ q ∈ d.vertices, canExecute d q.2 = false := by
    intro q hq
    cases hcq : canExecute d q.2 with
    | true => exact absurd hcq (hno q hq)
    | false => rfl
  have hstep : ∀ x : String,
      (∃ v, alookup d.vertices x = some v ∧ v.status = Status.Pending) →
      ∃ y, (∃ v, alookup d.vertices y = some v ∧ v.status = Status.Pending) ∧
        x ∈ getList d.connectionsChildren y := by
    intro x hx
    obtain ⟨v, hv, hvp⟩ := hx
    have hmemv : (x, v) ∈ d.vertices := alookup_mem d.vertices x v hv
    have hvid : v.id = x := hkm (x, v) hmemv
    have hfalse : canExecute d v = false := hno' (x, v) hmemv
    have hnotready : ¬ (v.status = Status.Pending ∧
        ∀ pid ∈ parentsOf d v.id,
          ∃ p, alookup d.vertices pid = some p ∧ p.status ≠ Status.Pending) := by
      intro hc
      have := (canExecute_eq_true_iff d v).mpr hc
      rw [hfalse] at this
      simp at this
    push_neg at hnotready
    obtain ⟨pid, hpidmem, hbad⟩ := hnotready hvp
    obtain ⟨vp, hvp'⟩ := hcp v.id pid hpidmem
    refine ⟨pid, ⟨vp, hvp', hbad vp hvp'⟩, ?_⟩
    rw [hvid] at hpidmem
    exact (hsym pid x).mp hpidmem
  obtain ⟨p0, hp0mem, hp0st⟩ := hpend
  have hP0 : ∃ v, alookup d.vertices p0.1 = some v ∧ v.status = Status.Pending :=
    ⟨p0.2, alookup_of_mem_nodup d.vertices p0.1 p0.2 hkn (by simpa using hp0mem), hp0st⟩
  let PendId : String → Prop := fun x =>
    ∃ v, alookup d.vertices x = some v ∧ v.status = Status.Pending
  let F : {x : String // PendId x} → {x : String // PendId x} := fun s =>
    ⟨(hstep s.1 s.2).choose, (hstep s.1 s.2).choose_spec.1⟩
  let g : Nat → {x : String // PendId x} := fun n => F^[n] ⟨p0.1, hP0⟩
  have hgsucc : ∀ n, g (n + 1) = F (g n) := by
    intro n
    exact Function.iterate_succ_apply' F n ⟨p0.1, hP0⟩
  have hchain : ∀ k, (g k).1 ∈ getList d.connectionsChildren ((g (k + 1)).1) := by
    intro k
    rw [hgsucc k]
    exact (hstep (g k).1 (g k).2).choose_spec.2
  have hkeys : ∀ k, k ≤ (d.vertices.map Prod.fst).length →
      (g k).1 ∈ d.vertices.map Prod.fst := by
    intro k _
    obtain ⟨v, hv, _⟩ := (g k).2
    exact mem_keys_of_alookup d.vertices (g k).1 v hv
  obtain ⟨i, j, hij, _, heq⟩ := exists_repeat (fun k => (g k).1) _ hkeys
  have hreach := reaches_of_chain_up d.connectionsChildren (fun k => (g k).1) hchain i j hij
  simp only at hreach
  rw [heq] at hreach
  exact hacy _ hreach

lemma no_pending_of_ready_empty (d : Dag) (hw : WellBuilt d)
    (hempty : readyList d = []) :
    ∀ p ∈ d.vertices, p.2.status ≠ Status.Pending := by
  intro p hp hps
  obtain ⟨h1, h2, _, h4, h5, h6⟩ := hw
  obtain ⟨q, hq, hqce⟩ := exists_ready_of_pending d h1 h2 h4 h5 h6 ⟨p, hp, hps⟩
  have hmem : q.2 ∈ readyList d :=
    (mem_readyList_iff d q.2).mpr ⟨List.mem_map.mpr ⟨q, hq, rfl⟩, hqce⟩
  rw [hempty] at hmem
  simp at hmem

lemma wellBuilt_runStepOK (d d' : Dag) (hw : WellBuilt d) (h : RunStepOK d d') :
    WellBuilt d' := by
  cases h with
  | emptyWave hfin hready =>
      exact wellBuilt_transport _ d rfl rfl rfl hw
  | fullWave acts hfin hready hmem hlen hP =>
      exact wellBuilt_applyActs acts (markStarted d)
        (wellBuilt_transport _ d rfl rfl rfl hw)

lemma runStepOK_status (d d' : Dag) (h : RunStepOK d d') :
    d'.status = Status.Pending ∨ d'.status = Status.Passed := by
  cases h with
  | emptyWave hfin hready => exact Or.inr rfl
  | fullWave acts hfin hready hmem hlen hP =>
      left
      have hs := applyActs_status acts (markStarted d) hP
      rw [hs]
      exact (hasFinished_eq_false_iff d).mp hfin

lemma runStepOK_measure (d d' : Dag) (hw : WellBuilt d) (h : RunStepOK d d') :
    runMeasure d' < runMeasure d := by
  have hnf := runStepP_not_finished h
  have hrm : runMeasure d = pendCount d + 1 := by
    unfold runMeasure
    rw [hnf]
    simp
  cases h with
  | emptyWave hfin hready =>
      have h3 : runMeasure { markStarted d with status := Status.Passed } = pendCount d := rfl
      rw [h3, hrm]
      omega
  | fullWave acts hfin hready hmem hlen hP =>
      have hw' : WellBuilt (markStarted d) := wellBuilt_transport _ d rfl rfl rfl hw
      obtain ⟨k1, k2, k3, _, _, _⟩ := hw'
      have hst : (markStarted d).status = Status.Pending :=
        (hasFinished_eq_false_iff d).mp hfin
      have hlt : pendCount (applyActs (markStarted d) acts) < pendCount (markStarted d) :=
        wave_progress (markStarted d) k1 k2 k3 hst hready acts hmem hlen
      have hle : runMeasure (applyActs (markStarted d) acts) ≤
          pendCount (applyActs (markStarted d) acts) + 1 := by
        unfold runMeasure
        have : (if hasFinished (applyActs (markStarted d) acts) = true then 0 else 1) ≤ 1 := by
          split <;> omega
        omega
      have hpd : pendCount (markStarted d) = pendCount d := rfl
      omega

lemma acc_runStepOK (n : Nat) : ∀ d : Dag, WellBuilt d → runMeasure d ≤ n →
    Acc (fun a b => RunStepOK b a) d := by
  induction n with
  | zero =>
      intro d hw hm
      constructor
      intro d' hstep
      have := runStepOK_measure d d' hw hstep
      omega
  | succ n ih =>
      intro d hw hm
      constructor
      intro d' hstep
      refine ih d' (wellBuilt_runStepOK d d' hw hstep) ?_
      have := runStepOK_measure d d' hw hstep
      omega

lemma step_exists_of_unfinished (d : Dag) (hnf : hasFinished d = false) :
    ∃ d', RunStepOK d d' := by
  by_cases hready : readyList (markStarted d) = []
  · exact ⟨_, RunStepP.emptyWave d hnf hready⟩
  · refine ⟨_, RunStepP.fullWave d (canonActs (readyList (markStarted d))) hnf hready ?_ ?_ ?_⟩
    · intro a ha
      obtain ⟨v, hv, hav⟩ := mem_canonActs _ a ha
      rw [hav]
      exact List.mem_map.mpr ⟨v, hv, rfl⟩
    · exact length_canonActs _
    · intro a ha hfalse v _
      obtain ⟨v', _, hav⟩ := mem_canonActs _ a ha
      rw [hav] at hfalse
      simp at hfalse

lemma reach_invariants (d d' : Dag) (hw : WellBuilt d)
    (hst : d.status = Status.Pending ∨ d.status = Status.Passed)
    (hrt : Relation.ReflTransGen RunStepOK d d') :
    WellBuilt d' ∧ (d'.status = Status.Pending ∨ d'.status = Status.Passed) := by
  induction hrt with
  | refl => exact ⟨hw, hst⟩
  | tail _ hstep ih =>
      exact ⟨wellBuilt_runStepOK _ _ ih.1 hstep, runStepOK_status _ _ hstep⟩

lemma final_state (d d' : Dag) (hw : WellBuilt d) (hst : d.status = Status.Pending)
    (hrt : Relation.ReflTransGen RunStepOK d d')
    (hmax : ∀ d'', ¬ RunStepOK d' d'') :
    d'.status = Status.Passed ∧ ∀ p ∈ d'.vertices, p.2.status ≠ Status.Pending := by
  obtain ⟨hw', hst'⟩ := reach_invariants d d' hw (Or.inl hst) hrt
  have hfin : hasFinished d' = true := by
    cases hf : hasFinished d' with
    | true => rfl
    | false =>
        obtain ⟨d'', hstep⟩ := step_exists_of_unfinished d' hf
        exact absurd hstep (hmax d'')
  have hpassed : d'.status = Status.Passed := by
    rcases hst' with h | h
    · rw [hasFinished_eq_true_iff] at hfin
      rcases hfin with hh | hh
      · exact hh
      · rw [h] at hh
        exact absurd hh (by decide)
    · exact h
  refine ⟨hpassed, ?_⟩
  rcases Relation.ReflTransGen.cases_tail hrt with heq | ⟨c, hrc, hstep⟩
  · rw [heq] at hpassed
    rw [hst] at hpassed
    exact absurd hpassed (by decide)
  · obtain ⟨hwc, _⟩ := reach_invariants d c hw (Or.inl hst) hrc
    cases hstep with
    | emptyWave hfin2 hready =>
        intro p hp hps
        have hwc' : WellBuilt (markStarted c) := wellBuilt_transport _ c rfl rfl rfl hwc
        exact no_pending_of_ready_empty (markStarted c) hwc' hready p hp hps
    | fullWave acts hfin2 hready hmem hlen hP =>
        exfalso
        have hs := applyActs_status acts (markStarted c) hP
        rw [hs] at hpassed
        have hcp2 : c.status = Status.Pending := (hasFinished_eq_false_iff c).mp hfin2
        rw [show (markStarted c).status = c.status from rfl, hcp2] at hpassed
        exact absurd hpassed (by decide)

/-- C6: on a well-built graph (finite, acyclic, edges between registered
vertices, positive repetition counts) starting at `Pending`, every run in
which no `canFail = false` vertex ever reports failure terminates — the step
relation `RunStepOK` is well-founded below the start state — and every
maximal run ends with graph status `Passed` and every vertex non-`Pending`:
each full wave resolves at least one pending vertex, and the only way a run
can stop is the empty-ready-set success rule, which (by acyclicity and
closedness) fires only when no vertex is still pending. -/
theorem run_terminates_passed (d : Dag) (hw : WellBuilt d)
    (hst : d.status = Status.Pending) :
    Acc (fun a b => RunStepOK b a) d ∧
    ∀ d', Relation.ReflTransGen RunStepOK d d' →
      (∀ d'', ¬ RunStepOK d' d'') →
      d'.status = Status.Passed ∧ ∀ p ∈ d'.vertices, p.2.status ≠ Status.Pending := by
  refine ⟨acc_runStepOK (runMeasure d) d hw (Nat.le_refl _), ?_⟩
  intro d' hrt hmax
  exact final_state d d' hw hst hrt hmax

/-- Witness for C6 on the concrete one-vertex graph. -/
theorem run_terminates_passed_witness :
    Acc (fun a b => RunStepOK b a) dagOneA ∧
    ∀ d', Relation.ReflTransGen RunStepOK dagOneA d' →
      (∀ d'', ¬ RunStepOK d' d'') →
      d'.status = Status.Passed ∧ ∀ p ∈ d'.vertices, p.2.status ≠ Status.Pending := by
  refine run_terminates_passed dagOneA ⟨?_, ?_, ?_, ?_, ?_, ?_⟩ rfl
  · unfold KeysNodup
    decide
  · unfold KeysMatch
    decide
  · unfold LoopsPos
    decide
  · intro i pid h
    simp [parentsOf, getList, alookup] at h
  · intro a b
    simp [parentsOf, childrenOf, getList, alookup]
  · exact acyclic_nil
